import Mathlib

/-!
# Verification of the trade_bot alert pipeline

Shallow embedding of the core data structures and operations of the
`crypto-bot` sources (candle processor, subscription cache, gas-price
crossing monitor, outbound message queue) and proofs of the behavioural
claims about them.

Python dictionaries are modelled as `Finmap` (Python `dict.__eq__` is
order-insensitive, so a quotient-by-permutation map is a faithful notion
of dictionary state equality); Python lists as `List`; floats as `ℚ`.
-/

namespace TradeBot

/-! ## Generic finite-map helpers

`Finmap` over a constant value family plays the role of a Python dict.
The helpers below are the extensional facts about `insert`/`erase` that
the cache proofs need.
-/

abbrev Dict (α : Type) (β : Type) [DecidableEq α] := Finmap (fun _ : α => β)

variable {α β : Type} [DecidableEq α]

theorem Dict.erase_of_not_mem {k : α} {m : Dict α β} (h : k ∉ m) :
    m.erase k = m := by
  apply Finmap.ext_lookup
  intro x
  by_cases hx : x = k
  · subst hx
    rw [Finmap.lookup_erase, eq_comm, Finmap.lookup_eq_none]
    exact h
  · exact Finmap.lookup_erase_ne hx

theorem Dict.insert_lookup_self {k : α} {v : β} {m : Dict α β}
    (h : m.lookup k = some v) : m.insert k v = m := by
  apply Finmap.ext_lookup
  intro x
  by_cases hx : x = k
  · subst hx
    rw [Finmap.lookup_insert, h]
  · exact Finmap.lookup_insert_of_ne m hx

theorem Dict.erase_insert_self {k : α} {v : β} {m : Dict α β} (h : k ∉ m) :
    (m.insert k v).erase k = m := by
  apply Finmap.ext_lookup
  intro x
  by_cases hx : x = k
  · subst hx
    rw [Finmap.lookup_erase, eq_comm, Finmap.lookup_eq_none]
    exact h
  · rw [Finmap.lookup_erase_ne hx, Finmap.lookup_insert_of_ne m hx]

/-! ### A combinator for "read key, then write or delete it"

Each level of the nested subscription index is manipulated by the same
code shape: read the entry for a key (with defaultdict semantics),
transform it, then either store the new value or delete the key (the
pruning of empty containers).  `localUpd` captures that shape once.
-/

def localUpd (k : α) (f : Option β → Option β) (m : Dict α β) : Dict α β :=
  match f (m.lookup k) with
  | none => m.erase k
  | some v => m.insert k v

theorem lookup_localUpd_self (k : α) (f : Option β → Option β) (m : Dict α β) :
    (localUpd k f m).lookup k = f (m.lookup k) := by
  unfold localUpd
  cases hf : f (m.lookup k) with
  | none => simp [Finmap.lookup_erase]
  | some v => simp [Finmap.lookup_insert]

theorem lookup_localUpd_ne {k k' : α} (f : Option β → Option β) (m : Dict α β)
    (h : k' ≠ k) : (localUpd k f m).lookup k' = m.lookup k' := by
  unfold localUpd
  cases f (m.lookup k) with
  | none => exact Finmap.lookup_erase_ne h
  | some v => exact Finmap.lookup_insert_of_ne m h

theorem localUpd_localUpd_self (k : α) (f g : Option β → Option β) (m : Dict α β) :
    localUpd k f (localUpd k g m) = localUpd k (fun o => f (g o)) m := by
  apply Finmap.ext_lookup
  intro x
  by_cases hx : x = k
  · subst hx
    rw [lookup_localUpd_self, lookup_localUpd_self, lookup_localUpd_self]
  · rw [lookup_localUpd_ne _ _ hx, lookup_localUpd_ne _ _ hx, lookup_localUpd_ne _ _ hx]

theorem localUpd_comm {k k' : α} (f g : Option β → Option β) (m : Dict α β)
    (h : k ≠ k') :
    localUpd k f (localUpd k' g m) = localUpd k' g (localUpd k f m) := by
  apply Finmap.ext_lookup
  intro x
  by_cases hx : x = k
  · subst hx
    rw [lookup_localUpd_self, lookup_localUpd_ne _ _ h, lookup_localUpd_ne _ _ h,
      lookup_localUpd_self]
  · by_cases hx' : x = k'
    · subst hx'
      rw [lookup_localUpd_ne _ _ (Ne.symm h), lookup_localUpd_self,
        lookup_localUpd_self, lookup_localUpd_ne _ _ (Ne.symm h)]
    · rw [lookup_localUpd_ne _ _ hx, lookup_localUpd_ne _ _ hx',
        lookup_localUpd_ne _ _ hx', lookup_localUpd_ne _ _ hx]

theorem localUpd_congr {k : α} {f g : Option β → Option β} (m : Dict α β)
    (h : ∀ o, f o = g o) : localUpd k f m = localUpd k g m := by
  have hfg : f = g := funext h
  rw [hfg]

theorem localUpd_eq_self {k : α} {f : Option β → Option β} {m : Dict α β}
    (h : f (m.lookup k) = m.lookup k) : localUpd k f m = m := by
  apply Finmap.ext_lookup
  intro x
  by_cases hx : x = k
  · subst hx
    rw [lookup_localUpd_self, h]
  · exact lookup_localUpd_ne _ _ hx

/-! ## The subscription cache (`cache/memory.py`, class `MemoryCache`)

`PresetData` mirrors the dataclass of the same name.  The nested
subscriber index `active_subscriptions : symbol -> interval -> user_id ->
list of preset ids` is a three-level `Dict`; the preset table and the gas
threshold table are flat `Dict`s.
-/

structure PresetData where
  id : ℕ
  user_id : ℕ
  name : String
  pairs : List String
  intervals : List String
  percent_change : ℚ
  is_active : Bool
  deriving DecidableEq, Repr

/-- `user_id -> [preset_id]`, the innermost level of the index. -/
abbrev UserMap := Dict ℕ (List ℕ)

/-- `interval -> UserMap`, the middle level of the index. -/
abbrev IntervalMap := Dict String UserMap

/-- `symbol -> IntervalMap`: the `active_subscriptions` index. -/
abbrev Subs := Dict String IntervalMap

/-- The full `MemoryCache` state (the fields the claims are about). -/
structure MemCache where
  presets : Dict ℕ PresetData
  active_subscriptions : Subs
  gas_alerts : Dict ℕ ℚ
  deriving DecidableEq

/-- Innermost step of `_add_preset_to_subscriptions`: the user's list of
preset ids gets `preset_id` appended (defaultdict: a missing user starts
from `[]`). -/
def addU (u pid : ℕ) (m : UserMap) : UserMap :=
  localUpd u (fun o => some ((o.getD []) ++ [pid])) m

/-- Interval level of the add: `...[interval]` defaultdict access, then
the user-level append inside it. -/
def addIv (interval : String) (u pid : ℕ) (m : IntervalMap) : IntervalMap :=
  localUpd interval (fun o => some (addU u pid (o.getD ∅))) m

/-- `self.active_subscriptions[symbol][interval][user_id].append(preset_id)`:
defaultdict access materialises the missing levels, then the preset id is
appended to the user's list. -/
def addOneSub (symbol interval : String) (u pid : ℕ) (subs : Subs) : Subs :=
  localUpd symbol (fun o => some (addIv interval u pid (o.getD ∅))) subs

/-- Innermost step of `_remove_preset_from_subscriptions`: remove the
first occurrence of `pid` from the user's list (`if preset.id in
user_presets: user_presets.remove(preset.id)`), then prune the user entry
if the list became empty (`if not user_presets: ... .pop(user_id, None)`). -/
def remU (u pid : ℕ) (m : UserMap) : UserMap :=
  localUpd u (fun o =>
    let l := (o.getD []).erase pid
    if l = [] then none else some l) m

/-- Interval level of the removal: apply the user-level removal, then
prune the interval entry if its user map became empty. -/
def remIv (interval : String) (u pid : ℕ) (m : IntervalMap) : IntervalMap :=
  localUpd interval (fun o =>
    let m2 := remU u pid (o.getD ∅)
    if m2 = ∅ then none else some m2) m

/-- One `(symbol, interval)` step of `_remove_preset_from_subscriptions`,
with the final pruning of the symbol entry. -/
def removeOneSub (symbol interval : String) (u pid : ℕ) (subs : Subs) : Subs :=
  localUpd symbol (fun o =>
    let m1 := remIv interval u pid (o.getD ∅)
    if m1 = ∅ then none else some m1) subs

/-- The inner `for interval in intervals:` loop of the add, at the
interval-map level. -/
def addIvAll (intervals : List String) (u pid : ℕ) (m : IntervalMap) : IntervalMap :=
  match intervals with
  | [] => m
  | iv :: rest => addIvAll rest u pid (addIv iv u pid m)

/-- The inner `for interval in intervals:` loop of the removal, at the
interval-map level. -/
def remIvAll (intervals : List String) (u pid : ℕ) (m : IntervalMap) : IntervalMap :=
  match intervals with
  | [] => m
  | iv :: rest => remIvAll rest u pid (remIv iv u pid m)

/-- The inner interval loop of the add for one symbol of `preset.pairs`. -/
def addSymAll (symbol : String) (intervals : List String) (u pid : ℕ) (subs : Subs) : Subs :=
  match intervals with
  | [] => subs
  | iv :: rest => addSymAll symbol rest u pid (addOneSub symbol iv u pid subs)

/-- The inner interval loop of the removal for one symbol. -/
def remSymAll (symbol : String) (intervals : List String) (u pid : ℕ) (subs : Subs) : Subs :=
  match intervals with
  | [] => subs
  | iv :: rest => remSymAll symbol rest u pid (removeOneSub symbol iv u pid subs)

/-- The outer `for symbol in pairs:` loop of the add. -/
def addSubsFold (pairs ivs : List String) (u pid : ℕ) (subs : Subs) : Subs :=
  match pairs with
  | [] => subs
  | sym :: rest => addSubsFold rest ivs u pid (addSymAll sym ivs u pid subs)

/-- The outer `for symbol in pairs:` loop of the removal. -/
def remSubsFold (pairs ivs : List String) (u pid : ℕ) (subs : Subs) : Subs :=
  match pairs with
  | [] => subs
  | sym :: rest => remSubsFold rest ivs u pid (remSymAll sym ivs u pid subs)

/-- `_add_preset_to_subscriptions`: the nested
`for symbol in pairs: for interval in intervals:` loop. -/
def addPresetToSubscriptions (p : PresetData) (subs : Subs) : Subs :=
  addSubsFold p.pairs p.intervals p.user_id p.id subs

/-- `_remove_preset_from_subscriptions`: the same loop with removal. -/
def removePresetFromSubscriptions (p : PresetData) (subs : Subs) : Subs :=
  remSubsFold p.pairs p.intervals p.user_id p.id subs

/-- `MemoryCache.add_preset`: store the preset, and index it when active. -/
def MemCache.add_preset (st : MemCache) (p : PresetData) : MemCache :=
  { st with
    presets := st.presets.insert p.id p
    active_subscriptions :=
      if p.is_active then addPresetToSubscriptions p st.active_subscriptions
      else st.active_subscriptions }

/-- `MemoryCache.remove_preset`: early return when the id is unknown,
otherwise unindex then delete the record. -/
def MemCache.remove_preset (st : MemCache) (pid : ℕ) : MemCache :=
  match st.presets.lookup pid with
  | none => st
  | some p =>
    { st with
      presets := st.presets.erase pid
      active_subscriptions :=
        removePresetFromSubscriptions p st.active_subscriptions }

/-- `MemoryCache.remove_gas_alert`: `self.gas_alerts.pop(user_id, None)`. -/
def MemCache.remove_gas_alert (st : MemCache) (u : ℕ) : MemCache :=
  { st with gas_alerts := st.gas_alerts.erase u }

/-! ### Well-formedness of the subscriber index

The documented invariant of the index: no empty nested container
survives a mutation, and every indexed preset id is a key of the preset
table.  For the round-trip proofs we need its consequence for one fresh
id `pid`: the index has no empty leaf and nowhere mentions `pid`. -/

def UserMapWF (pid : ℕ) (m : UserMap) : Prop :=
  ∀ u l, m.lookup u = some l → l ≠ [] ∧ pid ∉ l

def IntervalMapWF (pid : ℕ) (m : IntervalMap) : Prop :=
  ∀ iv m2, m.lookup iv = some m2 → m2 ≠ ∅ ∧ UserMapWF pid m2

def SubsWF (pid : ℕ) (subs : Subs) : Prop :=
  ∀ sym m1, subs.lookup sym = some m1 → m1 ≠ ∅ ∧ IntervalMapWF pid m1

theorem Dict.erase_empty (k : α) : (∅ : Dict α β).erase k = ∅ :=
  Dict.erase_of_not_mem (Finmap.not_mem_empty)

theorem UserMapWF_empty (pid : ℕ) : UserMapWF pid ∅ := by
  intro u l h
  rw [Finmap.lookup_empty] at h
  cases h

theorem IntervalMapWF_empty (pid : ℕ) : IntervalMapWF pid ∅ := by
  intro iv m2 h
  rw [Finmap.lookup_empty] at h
  cases h

/-! ### Removal is inert where the preset id does not occur -/

theorem remU_empty (u pid : ℕ) : remU u pid (∅ : UserMap) = ∅ := by
  unfold remU localUpd
  rw [Finmap.lookup_empty]
  simpa using Dict.erase_empty u

theorem remIv_empty (interval : String) (u pid : ℕ) :
    remIv interval u pid (∅ : IntervalMap) = ∅ := by
  unfold remIv localUpd
  rw [Finmap.lookup_empty]
  simpa [remU_empty] using Dict.erase_empty interval

theorem remIvAll_empty (intervals : List String) (u pid : ℕ) :
    remIvAll intervals u pid (∅ : IntervalMap) = ∅ := by
  induction intervals with
  | nil => rfl
  | cons iv rest ih =>
    show remIvAll rest u pid (remIv iv u pid ∅) = ∅
    rw [remIv_empty]
    exact ih

theorem remU_noop {u pid : ℕ} {m : UserMap} (hwf : UserMapWF pid m) :
    remU u pid m = m := by
  unfold remU
  apply localUpd_eq_self
  cases hm : m.lookup u with
  | none => simp
  | some l =>
    obtain ⟨hne, hnm⟩ := hwf u l hm
    simp [List.erase_of_not_mem hnm, hne]

theorem remIv_noop {interval : String} {u pid : ℕ} {m : IntervalMap}
    (hwf : IntervalMapWF pid m) : remIv interval u pid m = m := by
  unfold remIv
  apply localUpd_eq_self
  cases hm : m.lookup interval with
  | none => simp [remU_empty]
  | some m2 =>
    obtain ⟨hne, hwf2⟩ := hwf interval m2 hm
    simp [remU_noop hwf2, hne]

theorem remIvAll_noop {intervals : List String} {u pid : ℕ} {m : IntervalMap}
    (hwf : IntervalMapWF pid m) : remIvAll intervals u pid m = m := by
  induction intervals with
  | nil => rfl
  | cons iv rest ih =>
    show remIvAll rest u pid (remIv iv u pid m) = m
    rw [remIv_noop hwf]
    exact ih

theorem removeOneSub_noop {symbol interval : String} {u pid : ℕ} {subs : Subs}
    (hwf : SubsWF pid subs) : removeOneSub symbol interval u pid subs = subs := by
  unfold removeOneSub
  apply localUpd_eq_self
  cases hm : subs.lookup symbol with
  | none => simp [remIv_empty]
  | some m1 =>
    obtain ⟨hne, hwf1⟩ := hwf symbol m1 hm
    simp [remIv_noop hwf1, hne]

theorem remSymAll_noop {symbol : String} {intervals : List String} {u pid : ℕ}
    {subs : Subs} (hwf : SubsWF pid subs) :
    remSymAll symbol intervals u pid subs = subs := by
  induction intervals with
  | nil => rfl
  | cons iv rest ih =>
    show remSymAll symbol rest u pid (removeOneSub symbol iv u pid subs) = subs
    rw [removeOneSub_noop hwf]
    exact ih

theorem remSubsFold_noop {pairs ivs : List String} {u pid : ℕ}
    {subs : Subs} (hwf : SubsWF pid subs) :
    remSubsFold pairs ivs u pid subs = subs := by
  induction pairs with
  | nil => rfl
  | cons sym rest ih =>
    show remSubsFold rest ivs u pid (remSymAll sym ivs u pid subs) = subs
    rw [remSymAll_noop hwf]
    exact ih

/-- On a well-formed index that nowhere mentions `pid`, the whole removal
loop is the identity. -/
theorem removePresetFromSubscriptions_noop {p : PresetData} {subs : Subs}
    (hwf : SubsWF p.id subs) :
    removePresetFromSubscriptions p subs = subs :=
  remSubsFold_noop hwf

/-! ### Single-key round trips -/

theorem remU_addU {u pid : ℕ} {m : UserMap} (hwf : UserMapWF pid m) :
    remU u pid (addU u pid m) = m := by
  unfold remU addU
  rw [localUpd_localUpd_self]
  apply localUpd_eq_self
  cases hm : m.lookup u with
  | none => simp
  | some l =>
    obtain ⟨hne, hnm⟩ := hwf u l hm
    simp [List.erase_append_right _ hnm, hne]

theorem remIv_addIv {interval : String} {u pid : ℕ} {m : IntervalMap}
    (hwf : IntervalMapWF pid m) :
    remIv interval u pid (addIv interval u pid m) = m := by
  unfold remIv addIv
  rw [localUpd_localUpd_self]
  apply localUpd_eq_self
  cases hm : m.lookup interval with
  | none =>
    have h1 : remU u pid (addU u pid (∅ : UserMap)) = ∅ :=
      remU_addU (UserMapWF_empty pid)
    simp [h1]
  | some m2 =>
    obtain ⟨hne, hwf2⟩ := hwf interval m2 hm
    simp [remU_addU hwf2, hne]

theorem removeOneSub_addOneSub {symbol interval : String} {u pid : ℕ}
    {subs : Subs} (hwf : SubsWF pid subs) :
    removeOneSub symbol interval u pid (addOneSub symbol interval u pid subs) = subs := by
  unfold removeOneSub addOneSub
  rw [localUpd_localUpd_self]
  apply localUpd_eq_self
  cases hm : subs.lookup symbol with
  | none =>
    have h1 : remIv interval u pid (addIv interval u pid (∅ : IntervalMap)) = ∅ :=
      remIv_addIv (IntervalMapWF_empty pid)
    simp [h1]
  | some m1 =>
    obtain ⟨hne, hwf1⟩ := hwf symbol m1 hm
    simp [remIv_addIv hwf1, hne]

/-! ### Commutation of steps at distinct keys -/

theorem remIv_addIv_comm {interval interval' : String} {u pid : ℕ}
    (h : interval ≠ interval') (m : IntervalMap) :
    remIv interval u pid (addIv interval' u pid m) =
      addIv interval' u pid (remIv interval u pid m) := by
  unfold remIv addIv
  exact localUpd_comm _ _ m h

theorem remIv_addIvAll_comm {interval : String} {rest : List String} {u pid : ℕ}
    (h : interval ∉ rest) (m : IntervalMap) :
    remIv interval u pid (addIvAll rest u pid m) =
      addIvAll rest u pid (remIv interval u pid m) := by
  induction rest generalizing m with
  | nil => rfl
  | cons iv2 r2 ih =>
    have h1 : interval ≠ iv2 := fun he => h (he ▸ List.mem_cons_self iv2 r2)
    have h2 : interval ∉ r2 := fun hm => h (List.mem_cons_of_mem iv2 hm)
    show remIv interval u pid (addIvAll r2 u pid (addIv iv2 u pid m)) = _
    rw [ih h2, remIv_addIv_comm h1]
    rfl

theorem removeOneSub_addOneSub_comm {symbol symbol' interval interval' : String}
    {u pid : ℕ} (h : symbol ≠ symbol') (subs : Subs) :
    removeOneSub symbol interval u pid (addOneSub symbol' interval' u pid subs) =
      addOneSub symbol' interval' u pid (removeOneSub symbol interval u pid subs) := by
  unfold removeOneSub addOneSub
  exact localUpd_comm _ _ subs h

theorem removeOneSub_addSymAll_comm {symbol symbol' interval : String}
    {ivs' : List String} {u pid : ℕ} (h : symbol ≠ symbol') (subs : Subs) :
    removeOneSub symbol interval u pid (addSymAll symbol' ivs' u pid subs) =
      addSymAll symbol' ivs' u pid (removeOneSub symbol interval u pid subs) := by
  induction ivs' generalizing subs with
  | nil => rfl
  | cons iv2 r2 ih =>
    show removeOneSub symbol interval u pid
        (addSymAll symbol' r2 u pid (addOneSub symbol' iv2 u pid subs)) = _
    rw [ih, removeOneSub_addOneSub_comm h]
    rfl

theorem remSymAll_addSymAll_comm {symbol symbol' : String}
    {ivs ivs' : List String} {u pid : ℕ} (h : symbol ≠ symbol') (subs : Subs) :
    remSymAll symbol ivs u pid (addSymAll symbol' ivs' u pid subs) =
      addSymAll symbol' ivs' u pid (remSymAll symbol ivs u pid subs) := by
  induction ivs generalizing subs with
  | nil => rfl
  | cons iv rest ih =>
    show remSymAll symbol rest u pid
        (removeOneSub symbol iv u pid (addSymAll symbol' ivs' u pid subs)) = _
    rw [removeOneSub_addSymAll_comm h, ih]
    rfl

theorem remSymAll_addFold_comm {symbol : String} {syms ivs : List String}
    {u pid : ℕ} (h : symbol ∉ syms) (subs : Subs) :
    remSymAll symbol ivs u pid (addSubsFold syms ivs u pid subs) =
      addSubsFold syms ivs u pid (remSymAll symbol ivs u pid subs) := by
  induction syms generalizing subs with
  | nil => rfl
  | cons sym rest ih =>
    have h1 : symbol ≠ sym := fun he => h (he ▸ List.mem_cons_self sym rest)
    have h2 : symbol ∉ rest := fun hm => h (List.mem_cons_of_mem sym hm)
    show remSymAll symbol ivs u pid
        (addSubsFold rest ivs u pid (addSymAll sym ivs u pid subs)) = _
    rw [ih h2, remSymAll_addSymAll_comm h1]
    rfl

/-! ### The fold-level round trips -/

theorem remIvAll_addIvAll {ivs : List String} {u pid : ℕ} {m : IntervalMap}
    (hwf : IntervalMapWF pid m) (hnd : ivs.Nodup) :
    remIvAll ivs u pid (addIvAll ivs u pid m) = m := by
  induction ivs generalizing m with
  | nil => rfl
  | cons iv rest ih =>
    obtain ⟨hni, hnd'⟩ := List.nodup_cons.mp hnd
    show remIvAll rest u pid (remIv iv u pid (addIvAll rest u pid (addIv iv u pid m))) = m
    rw [remIv_addIvAll_comm hni, remIv_addIv hwf]
    exact ih hwf hnd'

/-- The inner interval fold for one symbol, written as a single update of
that symbol's entry (needed to reduce across distinct symbols). -/
theorem addSymAll_cons (symbol iv : String) (rest : List String) (u pid : ℕ)
    (subs : Subs) :
    addSymAll symbol (iv :: rest) u pid subs =
      localUpd symbol
        (fun o => some (addIvAll (iv :: rest) u pid (o.getD ∅))) subs := by
  induction rest generalizing iv subs with
  | nil => rfl
  | cons iv2 r2 ih =>
    show addSymAll symbol (iv2 :: r2) u pid (addOneSub symbol iv u pid subs) = _
    rw [ih]
    unfold addOneSub
    rw [localUpd_localUpd_self]
    rfl

theorem remSymAll_cons (symbol iv : String) (rest : List String) (u pid : ℕ)
    (subs : Subs) :
    remSymAll symbol (iv :: rest) u pid subs =
      localUpd symbol
        (fun o =>
          let m1 := remIvAll (iv :: rest) u pid (o.getD ∅)
          if m1 = ∅ then none else some m1) subs := by
  induction rest generalizing iv subs with
  | nil => rfl
  | cons iv2 r2 ih =>
    show remSymAll symbol (iv2 :: r2) u pid (removeOneSub symbol iv u pid subs) = _
    rw [ih]
    unfold removeOneSub
    rw [localUpd_localUpd_self]
    apply localUpd_congr
    intro o
    show (let m1 := remIvAll (iv2 :: r2) u pid
            ((let m2 := remIv iv u pid (o.getD ∅)
              if m2 = ∅ then none else some m2).getD ∅)
          if m1 = ∅ then none else some m1) =
        (let m1 := remIvAll (iv :: iv2 :: r2) u pid (o.getD ∅)
         if m1 = ∅ then none else some m1)
    have hstep : remIvAll (iv :: iv2 :: r2) u pid (o.getD ∅) =
        remIvAll (iv2 :: r2) u pid (remIv iv u pid (o.getD ∅)) := rfl
    by_cases hc : remIv iv u pid (o.getD ∅) = ∅
    · simp only [hstep, hc, if_pos, Option.getD_some, Option.getD_none, remIvAll_empty]
    · simp only [hstep, if_neg hc, Option.getD_some]

theorem remSymAll_addSymAll_self {symbol : String} {ivs : List String}
    {u pid : ℕ} {subs : Subs} (hwf : SubsWF pid subs) (hnd : ivs.Nodup) :
    remSymAll symbol ivs u pid (addSymAll symbol ivs u pid subs) = subs := by
  cases ivs with
  | nil => rfl
  | cons iv rest =>
    rw [addSymAll_cons, remSymAll_cons, localUpd_localUpd_self]
    apply localUpd_eq_self
    cases hm : subs.lookup symbol with
    | none =>
      have h1 : remIvAll (iv :: rest) u pid (addIvAll (iv :: rest) u pid ∅) = ∅ :=
        remIvAll_addIvAll (IntervalMapWF_empty pid) hnd
      simp [h1]
    | some m1 =>
      obtain ⟨hne, hwf1⟩ := hwf symbol m1 hm
      simp [remIvAll_addIvAll hwf1 hnd, hne]

theorem remFold_addFold {pairs ivs : List String} {u pid : ℕ} {subs : Subs}
    (hp : pairs.Nodup) (hi : ivs.Nodup) (hwf : SubsWF pid subs) :
    remSubsFold pairs ivs u pid (addSubsFold pairs ivs u pid subs) = subs := by
  induction pairs generalizing subs with
  | nil => rfl
  | cons sym rest ih =>
    obtain ⟨hns, hnd'⟩ := List.nodup_cons.mp hp
    show remSubsFold rest ivs u pid (remSymAll sym ivs u pid
        (addSubsFold rest ivs u pid (addSymAll sym ivs u pid subs))) = subs
    rw [remSymAll_addFold_comm hns, remSymAll_addSymAll_self hwf hi]
    exact ih hnd' hwf

theorem SubsWF_empty (pid : ℕ) : SubsWF pid ∅ := by
  intro sym m1 h
  rw [Finmap.lookup_empty] at h
  cases h

/-- A cache with nothing in it, for concrete instantiations. -/
def emptyCache : MemCache := ⟨∅, ∅, ∅⟩

/-- A concrete active preset used to instantiate the round-trip claims. -/
def samplePreset : PresetData :=
  { id := 1, user_id := 7, name := "p", pairs := ["BTCUSDT", "ETHUSDT"],
    intervals := ["1m"], percent_change := 5, is_active := true }

/-- C9: on a cache whose subscriber index is well formed (no empty nested
container, every indexed id in the preset table; the preset's symbol and
interval collections are sets, hence duplicate-free) and for a preset id
not already present, `add_preset` followed by `remove_preset` of that id
restores the subscriber index and the preset table (and the rest of the
cache) exactly. -/
theorem add_then_remove_preset_roundtrip (st : MemCache) (p : PresetData)
    (hfresh : st.presets.lookup p.id = none)
    (hwf : SubsWF p.id st.active_subscriptions)
    (hpairs : p.pairs.Nodup) (hintervals : p.intervals.Nodup) :
    (st.add_preset p).remove_preset p.id = st := by
  have hne : p.id ∉ st.presets := Finmap.lookup_eq_none.mp hfresh
  unfold MemCache.add_preset MemCache.remove_preset
  simp only [Finmap.lookup_insert]
  rw [Dict.erase_insert_self hne]
  cases hb : p.is_active with
  | false =>
    rw [if_neg Bool.false_ne_true]
    rw [removePresetFromSubscriptions_noop hwf]
  | true =>
    simp only [if_true]
    unfold removePresetFromSubscriptions addPresetToSubscriptions
    rw [remFold_addFold hpairs hintervals hwf]

/-- Witness: the round trip evaluated on the empty cache with a concrete
two-symbol preset. -/
theorem add_then_remove_preset_roundtrip_witness :
    (emptyCache.add_preset samplePreset).remove_preset samplePreset.id = emptyCache :=
  add_then_remove_preset_roundtrip emptyCache samplePreset
    (Finmap.lookup_empty _) (SubsWF_empty _) (by decide) (by decide)

/-- C10: `remove_preset` with an unknown preset id and `remove_gas_alert`
for a user with no stored threshold both return leaving the whole cache
state (preset table, subscriber index, gas thresholds) unchanged. -/
theorem remove_missing_noop (st : MemCache) (pid u : ℕ)
    (hp : st.presets.lookup pid = none)
    (hg : st.gas_alerts.lookup u = none) :
    st.remove_preset pid = st ∧ st.remove_gas_alert u = st := by
  constructor
  · unfold MemCache.remove_preset
    rw [hp]
  · unfold MemCache.remove_gas_alert
    rw [Dict.erase_of_not_mem (Finmap.lookup_eq_none.mp hg)]

/-- Witness: both no-ops evaluated on the empty cache. -/
theorem remove_missing_noop_witness :
    emptyCache.remove_preset 5 = emptyCache ∧
      emptyCache.remove_gas_alert 9 = emptyCache :=
  remove_missing_noop emptyCache 5 9 (Finmap.lookup_empty _) (Finmap.lookup_empty _)

/-! ## The candle processor (`services/candle_alerts/processor.py`)

`PriceAnalyzer.calculate_change` computes the percent change with
Python's `round(x, 4)`, which rounds half to even ("banker's rounding").
Prices are embedded as rationals.
-/

/-- Round to the nearest integer, half to even, as Python `round` does. -/
def roundHalfEven (q : ℚ) : ℤ :=
  let f := ⌊q⌋
  let r := q - f
  if r < 1/2 then f
  else if 1/2 < r then f + 1
  else if f % 2 = 0 then f else f + 1

/-- `round(x, 4)`: round to four decimal places, half to even. -/
def round4 (q : ℚ) : ℚ := (roundHalfEven (q * 10000) : ℚ) / 10000

/-- `PriceAnalyzer.calculate_change`: zero on a degenerate open price,
otherwise the percent change rounded to 4 decimal places. -/
def calculate_change (open_price close_price : ℚ) : ℚ :=
  if open_price = 0 then 0
  else round4 ((close_price - open_price) / open_price * 100)

theorem roundHalfEven_abs_le (q : ℚ) : |q - roundHalfEven q| ≤ 1/2 := by
  unfold roundHalfEven
  have h0 : (0:ℚ) ≤ q - ⌊q⌋ := sub_nonneg.mpr (Int.floor_le q)
  have h1 : q - ⌊q⌋ < 1 := by
    have := Int.lt_floor_add_one q
    linarith
  by_cases hlt : q - ⌊q⌋ < 1/2
  · rw [if_pos hlt, abs_of_nonneg h0]
    linarith
  · by_cases hgt : 1/2 < q - ⌊q⌋
    · rw [if_neg hlt, if_pos hgt]
      push_cast
      rw [abs_of_nonpos (by linarith)]
      linarith
    · have heq : q - ⌊q⌋ = 1/2 := le_antisymm (not_lt.mp hgt) (not_lt.mp hlt)
      rw [if_neg hlt, if_neg hgt]
      by_cases he : (⌊q⌋ : ℤ) % 2 = 0
      · rw [if_pos he, abs_of_nonneg h0]
        linarith
      · rw [if_neg he]
        push_cast
        rw [abs_of_nonpos (by linarith)]
        linarith

theorem round4_abs_le (q : ℚ) : |round4 q - q| ≤ 1/20000 := by
  unfold round4
  have hkey : (roundHalfEven (q * 10000) : ℚ) / 10000 - q =
      -((q * 10000 - roundHalfEven (q * 10000)) / 10000) := by
    ring
  rw [hkey, abs_neg, abs_div]
  have hle := roundHalfEven_abs_le (q * 10000)
  have h4 : |(10000 : ℚ)| = 10000 := by norm_num
  rw [h4]
  rw [div_le_iff₀ (by norm_num)]
  linarith

/-- C3: for a nonzero open price the computed change is the exact
percent change `(close - open) / open * 100` rounded to four decimal
places — a multiple of `1/10000` within half an ulp of the exact value —
for a zero open price the result is `0` with no division, and
`open=100, close=105` gives exactly `5`. -/
theorem calculate_change_spec (o c : ℚ) (ho : o ≠ 0) :
    (∃ z : ℤ, calculate_change o c = z / 10000) ∧
      |calculate_change o c - (c - o) / o * 100| ≤ 1/20000 ∧
      calculate_change 0 c = 0 ∧
      calculate_change 100 105 = 5 := by
  refine ⟨⟨roundHalfEven ((c - o) / o * 100 * 10000), ?_⟩, ?_, ?_, ?_⟩
  · rw [calculate_change, if_neg ho]
    rfl
  · rw [calculate_change, if_neg ho]
    exact round4_abs_le _
  · rw [calculate_change, if_pos rfl]
  · rw [calculate_change, if_neg (by norm_num : (100:ℚ) ≠ 0)]
    have h5 : ((105 : ℚ) - 100) / 100 * 100 = 5 := by norm_num
    rw [h5, round4]
    have hr : roundHalfEven ((5 : ℚ) * 10000) = 50000 := by
      unfold roundHalfEven
      norm_num
    rw [hr]
    norm_num

/-- Witness: the specification instantiated at `open=100, close=105`. -/
theorem calculate_change_spec_witness :
    (∃ z : ℤ, calculate_change 100 105 = z / 10000) ∧
      |calculate_change 100 105 - (105 - 100) / 100 * 100| ≤ 1/20000 ∧
      calculate_change 0 105 = 0 ∧
      calculate_change 100 105 = 5 :=
  calculate_change_spec 100 105 (by norm_num)

/-! ### First matching preset per user (`_process_candle`, lines 157-190)

The per-user loop appends at most one alert: the first preset whose
threshold is at most the absolute percent change wins and `break` skips
the rest.  `subscribed_users` is the dict returned by
`cache.get_subscribed_users`, embedded in iteration order.
-/

/-- The candle subscriber loop of `_process_candle`: for each user, scan
the presets in order and emit one alert for the first one that matches. -/
def alertsForCandle (price_change : ℚ) :
    List (ℕ × List PresetData) → List (ℕ × PresetData)
  | [] => []
  | (u, ps) :: rest =>
    match ps.find? (fun p => decide (p.percent_change ≤ |price_change|)) with
    | some p => (u, p) :: alertsForCandle price_change rest
    | none => alertsForCandle price_change rest

theorem alertsForCandle_fst_mem {pc : ℚ} {subs : List (ℕ × List PresetData)} :
    ∀ a ∈ alertsForCandle pc subs, a.1 ∈ subs.map Prod.fst := by
  induction subs with
  | nil => intro a ha; cases ha
  | cons hd rest ih =>
    obtain ⟨u, ps⟩ := hd
    intro a ha
    simp only [alertsForCandle] at ha
    cases hf : ps.find? (fun p => decide (p.percent_change ≤ |pc|)) with
    | some p =>
      rw [hf] at ha
      rcases List.mem_cons.mp ha with h | h
      · subst h
        exact List.mem_cons_self _ _
      · exact List.mem_cons_of_mem _ (ih a h)
    | none =>
      rw [hf] at ha
      exact List.mem_cons_of_mem _ (ih a ha)

theorem alertsForCandle_filter_absent {pc : ℚ} {u : ℕ}
    {subs : List (ℕ × List PresetData)} (h : u ∉ subs.map Prod.fst) :
    (alertsForCandle pc subs).filter (fun a => decide (a.1 = u)) = [] := by
  rw [List.filter_eq_nil_iff]
  intro a ha
  simp only [decide_eq_true_eq]
  intro he
  exact h (he ▸ alertsForCandle_fst_mem a ha)

/-- C2: on any candle, each subscribed user receives at most one alert:
exactly the first preset (in iteration order) whose threshold is at most
the absolute percent change fires, the remaining presets are skipped.  In
particular a user whose 3 presets all match receives exactly 1 alert. -/
theorem candle_first_match_per_user (pc : ℚ) (subs : List (ℕ × List PresetData))
    (u : ℕ) (ps : List PresetData)
    (hnd : (subs.map Prod.fst).Nodup) (hm : (u, ps) ∈ subs) :
    ((alertsForCandle pc subs).filter (fun a => decide (a.1 = u)) =
      match ps.find? (fun p => decide (p.percent_change ≤ |pc|)) with
      | some p => [(u, p)]
      | none => []) ∧
    ((alertsForCandle pc subs).filter (fun a => decide (a.1 = u))).length ≤ 1 := by
  have hmain : (alertsForCandle pc subs).filter (fun a => decide (a.1 = u)) =
      match ps.find? (fun p => decide (p.percent_change ≤ |pc|)) with
      | some p => [(u, p)]
      | none => [] := by
    induction subs with
    | nil => cases hm
    | cons hd rest ih =>
      obtain ⟨v, qs⟩ := hd
      obtain ⟨hv, hnd'⟩ := List.nodup_cons.mp hnd
      rcases List.mem_cons.mp hm with h | h
      · injection h with h1 h2
        subst h1
        subst h2
        simp only [alertsForCandle]
        cases hf : List.find? (fun p => decide (p.percent_change ≤ |pc|)) ps with
        | some p =>
          rw [List.filter_cons_of_pos (by simp)]
          rw [alertsForCandle_filter_absent hv]
        | none =>
          rw [alertsForCandle_filter_absent hv]
      · have hu : u ∈ rest.map Prod.fst :=
          List.mem_map.mpr ⟨(u, ps), h, rfl⟩
        have hvu : v ≠ u := fun he => hv (he ▸ hu)
        simp only [alertsForCandle]
        cases hf : List.find? (fun p => decide (p.percent_change ≤ |pc|)) qs with
        | some p =>
          rw [List.filter_cons_of_neg (by simp [hvu])]
          exact ih hnd' h
        | none => exact ih hnd' h
  refine ⟨hmain, ?_⟩
  rw [hmain]
  cases ps.find? (fun p => decide (p.percent_change ≤ |pc|)) <;> simp

/-- Three concrete presets for one user, all matching a 5% move. -/
def presetQ (pid : ℕ) (t : ℚ) : PresetData :=
  { id := pid, user_id := 42, name := "q", pairs := ["BTCUSDT"],
    intervals := ["1m"], percent_change := t, is_active := true }

/-- Witness: one user subscribed with 3 presets of thresholds 1, 2 and 3,
candle change 5 percent — the filter for that user holds exactly the
first preset. -/
theorem candle_first_match_per_user_witness :
    ((alertsForCandle 5 [(42, [presetQ 1 1, presetQ 2 2, presetQ 3 3])]).filter
        (fun a => decide (a.1 = 42)) =
      match [presetQ 1 1, presetQ 2 2, presetQ 3 3].find?
          (fun p => decide (p.percent_change ≤ |(5 : ℚ)|)) with
      | some p => [(42, p)]
      | none => []) ∧
    ((alertsForCandle 5 [(42, [presetQ 1 1, presetQ 2 2, presetQ 3 3])]).filter
        (fun a => decide (a.1 = 42))).length ≤ 1 :=
  candle_first_match_per_user 5 [(42, [presetQ 1 1, presetQ 2 2, presetQ 3 3])]
    42 [presetQ 1 1, presetQ 2 2, presetQ 3 3] (by simp) (by simp)

/-! ### Alert deduplication (`_should_send_alert` / `_clear_cooldown`)

The cooldown table maps `(symbol, interval, rounded percent change)` to
the insertion time; `_clear_cooldown` deletes the entry
`ALERT_DEDUP_WINDOW` seconds later.  The embedding keeps insertion times
and treats an entry as gone once its clear task has fired.
-/

abbrev DedupKey := String × String × ℚ

/-- `config.ALERT_DEDUP_WINDOW` (seconds). -/
def ALERT_DEDUP_WINDOW : ℚ := 60

/-- The cooldown entries whose timed `_clear_cooldown` task has not yet
fired at time `now`. -/
def purgeCooldown (now : ℚ) (cd : List (DedupKey × ℚ)) : List (DedupKey × ℚ) :=
  cd.filter (fun e => decide (now < e.2 + ALERT_DEDUP_WINDOW))

def lookupKey (k : DedupKey) : List (DedupKey × ℚ) → Option ℚ
  | [] => none
  | (k', t) :: rest => if k' = k then some t else lookupKey k rest

/-- `_should_send_alert` at time `now`: a key still in cooldown is
suppressed; otherwise the alert passes and the key is recorded (its clear
task scheduled `ALERT_DEDUP_WINDOW` later). -/
def shouldSendAlert (now : ℚ) (cd : List (DedupKey × ℚ)) (k : DedupKey) :
    Bool × List (DedupKey × ℚ) :=
  let cd' := purgeCooldown now cd
  match lookupKey k cd' with
  | some _ => (false, cd')
  | none => (true, cd' ++ [(k, now)])

theorem lookupKey_filter_none {k : DedupKey} {l : List (DedupKey × ℚ)}
    {p : DedupKey × ℚ → Bool} (h : lookupKey k l = none) :
    lookupKey k (l.filter p) = none := by
  induction l with
  | nil => rfl
  | cons e rest ih =>
    obtain ⟨k', t⟩ := e
    simp only [lookupKey] at h
    by_cases hk : k' = k
    · rw [if_pos hk] at h
      cases h
    · rw [if_neg hk] at h
      cases hp : p (k', t) with
      | true =>
        rw [List.filter_cons_of_pos hp]
        simp only [lookupKey, if_neg hk]
        exact ih h
      | false =>
        rw [List.filter_cons_of_neg (by simp [hp])]
        exact ih h

theorem lookupKey_append_right {k : DedupKey} {l1 l2 : List (DedupKey × ℚ)}
    (h : lookupKey k l1 = none) :
    lookupKey k (l1 ++ l2) = lookupKey k l2 := by
  induction l1 with
  | nil => rfl
  | cons e rest ih =>
    obtain ⟨k', t⟩ := e
    simp only [lookupKey] at h ⊢
    by_cases hk : k' = k
    · rw [if_pos hk] at h
      cases h
    · rw [if_neg hk] at h ⊢
      exact ih h

/-- C4: an alert for a key passes the dedup gate; an identical key within
the window is suppressed (exactly one of the two passes); once the window
has elapsed the same key passes again. -/
theorem dedup_window_behaviour (cd : List (DedupKey × ℚ)) (k : DedupKey)
    (t1 t2 t3 : ℚ)
    (h0 : lookupKey k (purgeCooldown t1 cd) = none)
    (h12 : t1 ≤ t2) (h2 : t2 < t1 + ALERT_DEDUP_WINDOW)
    (h3 : t1 + ALERT_DEDUP_WINDOW ≤ t3) :
    (shouldSendAlert t1 cd k).1 = true ∧
    (shouldSendAlert t2 (shouldSendAlert t1 cd k).2 k).1 = false ∧
    (shouldSendAlert t3
        (shouldSendAlert t2 (shouldSendAlert t1 cd k).2 k).2 k).1 = true := by
  have hs1 : shouldSendAlert t1 cd k = (true, purgeCooldown t1 cd ++ [(k, t1)]) := by
    simp only [shouldSendAlert, h0]
  have hkeep : List.filter (fun e => decide (t2 < e.2 + ALERT_DEDUP_WINDOW))
      [(k, t1)] = [(k, t1)] := by
    rw [List.filter_cons_of_pos (by simpa using h2)]
    rfl
  have hp2 : purgeCooldown t2 (purgeCooldown t1 cd ++ [(k, t1)]) =
      purgeCooldown t2 (purgeCooldown t1 cd) ++ [(k, t1)] := by
    unfold purgeCooldown
    rw [List.filter_append, hkeep]
  have h02 : lookupKey k (purgeCooldown t2 (purgeCooldown t1 cd)) = none :=
    lookupKey_filter_none h0
  have hl2 : lookupKey k (purgeCooldown t2 (purgeCooldown t1 cd) ++ [(k, t1)]) =
      some t1 := by
    rw [lookupKey_append_right h02]
    simp [lookupKey]
  have hs2 : shouldSendAlert t2 (purgeCooldown t1 cd ++ [(k, t1)]) k =
      (false, purgeCooldown t2 (purgeCooldown t1 cd) ++ [(k, t1)]) := by
    simp only [shouldSendAlert]
    rw [hp2, hl2]
  have hdrop : List.filter (fun e => decide (t3 < e.2 + ALERT_DEDUP_WINDOW))
      [(k, t1)] = [] := by
    rw [List.filter_cons_of_neg (by simpa using not_lt.mpr h3)]
    rfl
  have hp3 : purgeCooldown t3 (purgeCooldown t2 (purgeCooldown t1 cd) ++ [(k, t1)]) =
      purgeCooldown t3 (purgeCooldown t2 (purgeCooldown t1 cd)) := by
    unfold purgeCooldown
    rw [List.filter_append, hdrop, List.append_nil]
  have h03 : lookupKey k (purgeCooldown t3 (purgeCooldown t2 (purgeCooldown t1 cd))) = none :=
    lookupKey_filter_none h02
  have hs3 : (shouldSendAlert t3
      (purgeCooldown t2 (purgeCooldown t1 cd) ++ [(k, t1)]) k).1 = true := by
    simp only [shouldSendAlert]
    rw [hp3, h03]
  refine ⟨by rw [hs1], ?_, ?_⟩
  · rw [hs1, hs2]
  · rw [hs1, hs2]
    exact hs3

/-- Witness: key `(BTCUSDT, 1m, 5)` from an empty cooldown table at times
0, 30 and 60 seconds. -/
theorem dedup_window_behaviour_witness :
    (shouldSendAlert 0 [] ("BTCUSDT", "1m", 5)).1 = true ∧
    (shouldSendAlert 30 (shouldSendAlert 0 [] ("BTCUSDT", "1m", 5)).2
        ("BTCUSDT", "1m", 5)).1 = false ∧
    (shouldSendAlert 60
        (shouldSendAlert 30 (shouldSendAlert 0 [] ("BTCUSDT", "1m", 5)).2
          ("BTCUSDT", "1m", 5)).2 ("BTCUSDT", "1m", 5)).1 = true :=
  dedup_window_behaviour [] ("BTCUSDT", "1m", 5) 0 30 60 rfl (by norm_num)
    (by norm_num [ALERT_DEDUP_WINDOW]) (by norm_num [ALERT_DEDUP_WINDOW])

/-! ## The gas crossing monitor (`services/gas_alerts/service.py`)

`presets_by_threshold` is a dict `threshold -> set of user ids`, embedded
in iteration order as an association list with duplicate-free user lists.
`_check_crossings_optimized` scans it against
`[min(previous, current), max(previous, current)]`, emits one alert per
user of each strictly-crossed threshold, and consumes the fired presets
from storage, the cache and the service's own grouping.
-/

/-- `threshold -> users`, the `presets_by_threshold` grouping. -/
abbrev GasPresets := List (ℚ × List ℕ)

/-- The gas-alert state across the three stores the claims mention. -/
structure GasServiceState where
  presetsByThreshold : GasPresets
  cacheGasAlerts : Dict ℕ ℚ
  storageGasAlerts : Dict ℕ ℚ
  deriving DecidableEq

/-- `GasAlertService.remove_preset`: drop the user from the first
threshold group holding it and delete the group if it empties. -/
def removePresetSvc (u : ℕ) : GasPresets → GasPresets
  | [] => []
  | (t, us) :: rest =>
    if u ∈ us then
      (let us' := us.erase u
       if us' = [] then rest else (t, us') :: rest)
    else (t, us) :: removePresetSvc u rest

/-- The scan of `_check_crossings_optimized`: every threshold strictly
between the price extremes fires one `(user, threshold)` alert per
subscribed user, in iteration order. -/
def crossedAlerts (minP maxP : ℚ) : GasPresets → List (ℕ × ℚ)
  | [] => []
  | (t, us) :: rest =>
    if minP < t ∧ t < maxP then
      us.map (fun u => (u, t)) ++ crossedAlerts minP maxP rest
    else crossedAlerts minP maxP rest

/-- The consumption loop: for each fired user, delete from storage
(`db_manager.delete_gas_alert`), the cache (`cache.remove_gas_alert`) and
the service grouping (`self.remove_preset`). -/
def consumeAlerts (alerts : List (ℕ × ℚ)) (st : GasServiceState) : GasServiceState :=
  match alerts with
  | [] => st
  | a :: rest =>
    consumeAlerts rest
      { presetsByThreshold := removePresetSvc a.1 st.presetsByThreshold
        cacheGasAlerts := st.cacheGasAlerts.erase a.1
        storageGasAlerts := st.storageGasAlerts.erase a.1 }

/-- `_check_crossings_optimized`: no-op when there are no presets or the
price did not move; otherwise fire the strictly-crossed thresholds and
consume them. -/
def checkCrossingsOptimized (prev curr : ℚ) (st : GasServiceState) :
    List (ℕ × ℚ) × GasServiceState :=
  if st.presetsByThreshold = [] then ([], st)
  else
    let minP := min prev curr
    let maxP := max prev curr
    if minP = maxP then ([], st)
    else
      let alerts := crossedAlerts minP maxP st.presetsByThreshold
      (alerts, consumeAlerts alerts st)

theorem mem_crossedAlerts {minP maxP t : ℚ} {u : ℕ} {l : GasPresets} :
    (u, t) ∈ crossedAlerts minP maxP l ↔
      ∃ us, (t, us) ∈ l ∧ u ∈ us ∧ minP < t ∧ t < maxP := by
  induction l with
  | nil => simp [crossedAlerts]
  | cons hd rest ih =>
    obtain ⟨t', us'⟩ := hd
    simp only [crossedAlerts]
    by_cases hc : minP < t' ∧ t' < maxP
    · rw [if_pos hc]
      simp only [List.mem_append, List.mem_map, ih]
      constructor
      · rintro (⟨v, hv, he⟩ | ⟨us, hus, hu, hlo, hhi⟩)
        · injection he with he1 he2
          subst he1
          subst he2
          exact ⟨us', List.mem_cons_self _ _, hv, hc.1, hc.2⟩
        · exact ⟨us, List.mem_cons_of_mem _ hus, hu, hlo, hhi⟩
      · rintro ⟨us, hus, hu, hlo, hhi⟩
        rcases List.mem_cons.mp hus with he | hm
        · injection he with he1 he2
          subst he1
          subst he2
          exact Or.inl ⟨u, hu, rfl⟩
        · exact Or.inr ⟨us, hm, hu, hlo, hhi⟩
    · rw [if_neg hc]
      rw [ih]
      constructor
      · rintro ⟨us, hus, hu, hlo, hhi⟩
        exact ⟨us, List.mem_cons_of_mem _ hus, hu, hlo, hhi⟩
      · rintro ⟨us, hus, hu, hlo, hhi⟩
        rcases List.mem_cons.mp hus with he | hm
        · injection he with he1 he2
          subst he1
          exact absurd ⟨hlo, hhi⟩ hc
        · exact ⟨us, hm, hu, hlo, hhi⟩

/-- The concrete scenario of the spec: thresholds 15, 20 and 25 (one
subscriber each). -/
def gasSample : GasServiceState :=
  { presetsByThreshold := [(15, [5]), (20, [7]), (25, [9])]
    cacheGasAlerts := ∅
    storageGasAlerts := ∅ }

/-- C1: a threshold fires on a tick exactly when it lies strictly between
the previous and the current sample; with thresholds 15, 20, 25 and
prices 22 → 18 only threshold 20 fires, and an unchanged price 18 → 18
fires nothing. -/
theorem gas_threshold_fires_iff (prev curr t : ℚ) (us : List ℕ) (u : ℕ)
    (st : GasServiceState) (hmem : (t, us) ∈ st.presetsByThreshold)
    (hu : u ∈ us) :
    ((u, t) ∈ (checkCrossingsOptimized prev curr st).1 ↔
      (min prev curr < t ∧ t < max prev curr)) ∧
    (checkCrossingsOptimized 22 18 gasSample).1 = [(7, 20)] ∧
    (checkCrossingsOptimized 18 18 gasSample).1 = [] := by
  refine ⟨?_, ?_, ?_⟩
  · unfold checkCrossingsOptimized
    by_cases hnil : st.presetsByThreshold = []
    · rw [hnil] at hmem
      cases hmem
    · rw [if_neg hnil]
      by_cases heq : min prev curr = max prev curr
      · rw [if_pos heq]
        simp only [List.not_mem_nil, false_iff]
        rintro ⟨hlo, hhi⟩
        exact absurd (heq ▸ hlo) (lt_asymm hhi)
      · rw [if_neg heq]
        simp only [mem_crossedAlerts]
        constructor
        · rintro ⟨us', _, _, hlo, hhi⟩
          exact ⟨hlo, hhi⟩
        · rintro ⟨hlo, hhi⟩
          exact ⟨us, hmem, hu, hlo, hhi⟩
  · unfold checkCrossingsOptimized gasSample
    simp only [List.cons_ne_nil, if_false]
    norm_num [crossedAlerts]
  · unfold checkCrossingsOptimized gasSample
    simp only [List.cons_ne_nil, if_false]
    norm_num

/-- Witness: the firing criterion applied to threshold 20 with user 7 on
the 22 → 18 tick. -/
theorem gas_threshold_fires_iff_witness :
    (((7 : ℕ), (20 : ℚ)) ∈ (checkCrossingsOptimized 22 18 gasSample).1 ↔
      (min (22 : ℚ) 18 < 20 ∧ (20 : ℚ) < max 22 18)) ∧
    (checkCrossingsOptimized 22 18 gasSample).1 = [(7, 20)] ∧
    (checkCrossingsOptimized 18 18 gasSample).1 = [] :=
  gas_threshold_fires_iff 22 18 20 [7] 7 gasSample (by simp [gasSample])
    (by simp)

/-! ### One-shot consumption of fired gas presets

Well-formedness of `presets_by_threshold`: dict values are sets (so user
lists are duplicate-free), and `add_preset` removes a user's previous
threshold before re-adding, so each user sits under at most one
threshold. -/

def GasWF (l : GasPresets) : Prop :=
  (∀ p ∈ l, p.2.Nodup) ∧ l.Pairwise (fun p q => ∀ v ∈ p.2, v ∉ q.2)

theorem crossedAlerts_filter_absent {u : ℕ} {minP maxP : ℚ} {l : GasPresets}
    (h : ∀ p ∈ l, u ∉ p.2) :
    (crossedAlerts minP maxP l).filter (fun a => decide (a.1 = u)) = [] := by
  rw [List.filter_eq_nil_iff]
  rintro ⟨u', t'⟩ ha
  simp only [decide_eq_true_eq]
  intro he
  obtain ⟨us', hus', hu', _, _⟩ := mem_crossedAlerts.mp ha
  exact h (t', us') hus' (he ▸ hu')

theorem count_map_pair_absent {us : List ℕ} {t : ℚ} {u : ℕ} (hu : u ∉ us) :
    (us.map (fun v => ((v : ℕ), t))).filter (fun a => decide (a.1 = u)) = [] := by
  rw [List.filter_eq_nil_iff]
  rintro ⟨u', t'⟩ ha
  simp only [decide_eq_true_eq]
  intro he
  obtain ⟨v, hv, hev⟩ := List.mem_map.mp ha
  injection hev with h1 h2
  exact hu ((h1.trans he) ▸ hv)

theorem count_map_pair {us : List ℕ} {t : ℚ} {u : ℕ} (hnd : us.Nodup)
    (hu : u ∈ us) :
    ((us.map (fun v => ((v : ℕ), t))).filter
      (fun a => decide (a.1 = u))).length = 1 := by
  induction us with
  | nil => cases hu
  | cons v rest ih =>
    obtain ⟨hv, hnd'⟩ := List.nodup_cons.mp hnd
    rcases List.mem_cons.mp hu with he | hm
    · subst he
      rw [List.map_cons, List.filter_cons_of_pos (by simp)]
      rw [count_map_pair_absent hv]
      rfl
    · have hne : v ≠ u := fun hev => hv (hev ▸ hm)
      rw [List.map_cons, List.filter_cons_of_neg (by simp [hne])]
      exact ih hnd' hm

theorem crossedAlerts_count_one {minP maxP t : ℚ} {u : ℕ} {us : List ℕ}
    {l : GasPresets} (hwf : GasWF l) (hmem : (t, us) ∈ l) (hu : u ∈ us)
    (hlo : minP < t) (hhi : t < maxP) :
    ((crossedAlerts minP maxP l).filter (fun a => decide (a.1 = u))).length = 1 := by
  obtain ⟨hnd, hpw⟩ := hwf
  induction l with
  | nil => cases hmem
  | cons hd rest ih =>
    obtain ⟨t', us'⟩ := hd
    obtain ⟨hhead, hpw'⟩ := List.pairwise_cons.mp hpw
    have hndr : ∀ p ∈ rest, p.2.Nodup := fun p hp => hnd p (List.mem_cons_of_mem _ hp)
    rcases List.mem_cons.mp hmem with he | hm
    · injection he with he1 he2
      subst he1
      subst he2
      simp only [crossedAlerts]
      rw [if_pos ⟨hlo, hhi⟩, List.filter_append, List.length_append]
      have h1 := @count_map_pair us t u (hnd (t, us) (List.mem_cons_self _ _)) hu
      have h2 : (crossedAlerts minP maxP rest).filter (fun a => decide (a.1 = u)) = [] :=
        crossedAlerts_filter_absent (fun q hq => hhead q hq u hu)
      rw [h1, h2]
      rfl
    · have hnus : u ∉ us' := fun hin => hhead (t, us) hm u hin hu
      simp only [crossedAlerts]
      by_cases hc : minP < t' ∧ t' < maxP
      · rw [if_pos hc, List.filter_append, List.length_append]
        rw [count_map_pair_absent hnus]
        simp only [List.length_nil, Nat.zero_add]
        exact ih hm hndr hpw'
      · rw [if_neg hc]
        exact ih hm hndr hpw'

theorem consume_cache_none {u : ℕ} {al : List (ℕ × ℚ)} {st : GasServiceState}
    (h : st.cacheGasAlerts.lookup u = none) :
    (consumeAlerts al st).cacheGasAlerts.lookup u = none := by
  induction al generalizing st with
  | nil => exact h
  | cons a rest ih =>
    show (consumeAlerts rest _).cacheGasAlerts.lookup u = none
    apply ih
    show (st.cacheGasAlerts.erase a.1).lookup u = none
    by_cases hau : u = a.1
    · subst hau
      exact Finmap.lookup_erase _ _
    · rw [Finmap.lookup_erase_ne hau]
      exact h

theorem consume_storage_none {u : ℕ} {al : List (ℕ × ℚ)} {st : GasServiceState}
    (h : st.storageGasAlerts.lookup u = none) :
    (consumeAlerts al st).storageGasAlerts.lookup u = none := by
  induction al generalizing st with
  | nil => exact h
  | cons a rest ih =>
    show (consumeAlerts rest _).storageGasAlerts.lookup u = none
    apply ih
    show (st.storageGasAlerts.erase a.1).lookup u = none
    by_cases hau : u = a.1
    · subst hau
      exact Finmap.lookup_erase _ _
    · rw [Finmap.lookup_erase_ne hau]
      exact h

theorem consume_cache_mem {u : ℕ} {al : List (ℕ × ℚ)} {st : GasServiceState}
    (h : u ∈ al.map Prod.fst) :
    (consumeAlerts al st).cacheGasAlerts.lookup u = none := by
  induction al generalizing st with
  | nil => cases h
  | cons a rest ih =>
    by_cases hau : a.1 = u
    · show (consumeAlerts rest _).cacheGasAlerts.lookup u = none
      apply consume_cache_none
      show (st.cacheGasAlerts.erase a.1).lookup u = none
      rw [hau]
      exact Finmap.lookup_erase u st.cacheGasAlerts
    · rcases List.mem_cons.mp h with he | hm
      · exact absurd he.symm hau
      · exact ih hm

theorem consume_storage_mem {u : ℕ} {al : List (ℕ × ℚ)} {st : GasServiceState}
    (h : u ∈ al.map Prod.fst) :
    (consumeAlerts al st).storageGasAlerts.lookup u = none := by
  induction al generalizing st with
  | nil => cases h
  | cons a rest ih =>
    by_cases hau : a.1 = u
    · show (consumeAlerts rest _).storageGasAlerts.lookup u = none
      apply consume_storage_none
      show (st.storageGasAlerts.erase a.1).lookup u = none
      rw [hau]
      exact Finmap.lookup_erase u st.storageGasAlerts
    · rcases List.mem_cons.mp h with he | hm
      · exact absurd he.symm hau
      · exact ih hm

theorem removePresetSvc_shrink {v : ℕ} {l : GasPresets} :
    ∀ q ∈ removePresetSvc v l, ∃ p ∈ l, ∀ w ∈ q.2, w ∈ p.2 := by
  induction l with
  | nil => intro q hq; cases hq
  | cons hd rest ih =>
    obtain ⟨t, us⟩ := hd
    intro q hq
    simp only [removePresetSvc] at hq
    by_cases hv : v ∈ us
    · rw [if_pos hv] at hq
      by_cases hemp : us.erase v = []
      · rw [if_pos hemp] at hq
        obtain ⟨p, hp, hsub⟩ : ∃ p ∈ rest, ∀ w ∈ q.2, w ∈ p.2 :=
          ⟨q, hq, fun w hw => hw⟩
        exact ⟨p, List.mem_cons_of_mem _ hp, hsub⟩
      · rw [if_neg hemp] at hq
        rcases List.mem_cons.mp hq with he | hm
        · subst he
          exact ⟨(t, us), List.mem_cons_self _ _,
            fun w hw => List.mem_of_mem_erase hw⟩
        · exact ⟨q, List.mem_cons_of_mem _ hm, fun w hw => hw⟩
    · rw [if_neg hv] at hq
      rcases List.mem_cons.mp hq with he | hm
      · subst he
        exact ⟨(t, us), List.mem_cons_self _ _, fun w hw => hw⟩
      · obtain ⟨p, hp, hsub⟩ := ih q hm
        exact ⟨p, List.mem_cons_of_mem _ hp, hsub⟩

theorem removePresetSvc_preserves_absent {u v : ℕ} {l : GasPresets}
    (h : ∀ p ∈ l, u ∉ p.2) :
    ∀ q ∈ removePresetSvc v l, u ∉ q.2 := by
  intro q hq hu
  obtain ⟨p, hp, hsub⟩ := removePresetSvc_shrink q hq
  exact h p hp (hsub u hu)

theorem removePresetSvc_removes {u : ℕ} {l : GasPresets} (hwf : GasWF l) :
    ∀ q ∈ removePresetSvc u l, u ∉ q.2 := by
  obtain ⟨hnd, hpw⟩ := hwf
  induction l with
  | nil => intro q hq; cases hq
  | cons hd rest ih =>
    obtain ⟨t, us⟩ := hd
    obtain ⟨hhead, hpw'⟩ := List.pairwise_cons.mp hpw
    have hndr : ∀ p ∈ rest, p.2.Nodup := fun p hp => hnd p (List.mem_cons_of_mem _ hp)
    intro q hq
    simp only [removePresetSvc] at hq
    by_cases hv : u ∈ us
    · rw [if_pos hv] at hq
      by_cases hemp : us.erase u = []
      · rw [if_pos hemp] at hq
        exact hhead q hq u hv
      · rw [if_neg hemp] at hq
        rcases List.mem_cons.mp hq with he | hm
        · subst he
          exact (hnd (t, us) (List.mem_cons_self _ _)).not_mem_erase
        · exact hhead q hm u hv
    · rw [if_neg hv] at hq
      rcases List.mem_cons.mp hq with he | hm
      · subst he
        exact hv
      · exact ih hndr hpw' q hm

theorem removePresetSvc_wf {v : ℕ} {l : GasPresets} (hwf : GasWF l) :
    GasWF (removePresetSvc v l) := by
  obtain ⟨hnd, hpw⟩ := hwf
  induction l with
  | nil => exact ⟨fun p hp => absurd hp (List.not_mem_nil p), List.Pairwise.nil⟩
  | cons hd rest ih =>
    obtain ⟨t, us⟩ := hd
    obtain ⟨hhead, hpw'⟩ := List.pairwise_cons.mp hpw
    have hndr : ∀ p ∈ rest, p.2.Nodup := fun p hp => hnd p (List.mem_cons_of_mem _ hp)
    have hrest : GasWF rest := ⟨hndr, hpw'⟩
    simp only [removePresetSvc]
    by_cases hv : v ∈ us
    · rw [if_pos hv]
      by_cases hemp : us.erase v = []
      · rw [if_pos hemp]
        exact hrest
      · rw [if_neg hemp]
        refine ⟨?_, ?_⟩
        · intro p hp
          rcases List.mem_cons.mp hp with he | hm
          · subst he
            exact (hnd (t, us) (List.mem_cons_self _ _)).erase v
          · exact hndr p hm
        · rw [List.pairwise_cons]
          refine ⟨?_, hpw'⟩
          intro q hq w hw
          exact hhead q hq w (List.mem_of_mem_erase hw)
    · rw [if_neg hv]
      refine ⟨?_, ?_⟩
      · intro p hp
        rcases List.mem_cons.mp hp with he | hm
        · subst he
          exact hnd (t, us) (List.mem_cons_self _ _)
        · obtain ⟨hnd2, _⟩ := ih hndr hpw'
          exact hnd2 p hm
      · rw [List.pairwise_cons]
        obtain ⟨_, hpw2⟩ := ih hndr hpw'
        refine ⟨?_, hpw2⟩
        intro q hq w hw
        obtain ⟨p, hp, hsub⟩ := removePresetSvc_shrink q hq
        intro hwq
        exact hhead p hp w hw (hsub w hwq)

theorem consume_preserves_absent {u : ℕ} {al : List (ℕ × ℚ)}
    {st : GasServiceState} (h : ∀ p ∈ st.presetsByThreshold, u ∉ p.2) :
    ∀ q ∈ (consumeAlerts al st).presetsByThreshold, u ∉ q.2 := by
  induction al generalizing st with
  | nil => exact h
  | cons a rest ih =>
    show ∀ q ∈ (consumeAlerts rest _).presetsByThreshold, u ∉ q.2
    exact ih (removePresetSvc_preserves_absent h)

theorem consume_presets_mem {u : ℕ} {al : List (ℕ × ℚ)} {st : GasServiceState}
    (hwf : GasWF st.presetsByThreshold) (h : u ∈ al.map Prod.fst) :
    ∀ q ∈ (consumeAlerts al st).presetsByThreshold, u ∉ q.2 := by
  induction al generalizing st with
  | nil => cases h
  | cons a rest ih =>
    by_cases hau : a.1 = u
    · show ∀ q ∈ (consumeAlerts rest _).presetsByThreshold, u ∉ q.2
      apply consume_preserves_absent
      show ∀ q ∈ removePresetSvc a.1 st.presetsByThreshold, u ∉ q.2
      rw [hau]
      exact removePresetSvc_removes hwf
    · rcases List.mem_cons.mp h with he | hm
      · exact absurd he.symm hau
      · exact ih (removePresetSvc_wf hwf) hm

/-- C5: when a threshold fires, each of its subscribed users gets exactly
one alert on that tick, and the user's threshold is gone from the cache's
gas map, from storage and from the monitor's grouping afterwards. -/
theorem gas_one_shot (prev curr t : ℚ) (us : List ℕ) (u : ℕ)
    (st : GasServiceState) (hwf : GasWF st.presetsByThreshold)
    (hmem : (t, us) ∈ st.presetsByThreshold) (hu : u ∈ us)
    (hlo : min prev curr < t) (hhi : t < max prev curr) :
    (((checkCrossingsOptimized prev curr st).1.filter
        (fun a => decide (a.1 = u))).length = 1) ∧
    ((checkCrossingsOptimized prev curr st).2.cacheGasAlerts.lookup u = none) ∧
    ((checkCrossingsOptimized prev curr st).2.storageGasAlerts.lookup u = none) ∧
    (∀ q ∈ (checkCrossingsOptimized prev curr st).2.presetsByThreshold, u ∉ q.2) := by
  have hnil : st.presetsByThreshold ≠ [] := List.ne_nil_of_mem hmem
  have hne : min prev curr ≠ max prev curr := ne_of_lt (hlo.trans hhi)
  have hred : checkCrossingsOptimized prev curr st =
      (crossedAlerts (min prev curr) (max prev curr) st.presetsByThreshold,
        consumeAlerts (crossedAlerts (min prev curr) (max prev curr)
          st.presetsByThreshold) st) := by
    unfold checkCrossingsOptimized
    rw [if_neg hnil, if_neg hne]
  rw [hred]
  have hfired : (u, t) ∈ crossedAlerts (min prev curr) (max prev curr)
      st.presetsByThreshold :=
    mem_crossedAlerts.mpr ⟨us, hmem, hu, hlo, hhi⟩
  have humem : u ∈ (crossedAlerts (min prev curr) (max prev curr)
      st.presetsByThreshold).map Prod.fst :=
    List.mem_map.mpr ⟨(u, t), hfired, rfl⟩
  exact ⟨crossedAlerts_count_one ⟨hwf.1, hwf.2⟩ hmem hu hlo hhi,
    consume_cache_mem humem, consume_storage_mem humem,
    consume_presets_mem hwf humem⟩

/-- The spec scenario with the fired user's threshold present in the
cache and in storage. -/
def gasSampleFull : GasServiceState :=
  { presetsByThreshold := [(15, [5]), (20, [7]), (25, [9])]
    cacheGasAlerts := (∅ : Dict ℕ ℚ).insert 7 20
    storageGasAlerts := (∅ : Dict ℕ ℚ).insert 7 20 }

/-- Witness: the 22 → 18 tick fires threshold 20 for user 7 exactly once
and consumes it everywhere. -/
theorem gas_one_shot_witness :
    (((checkCrossingsOptimized 22 18 gasSampleFull).1.filter
        (fun a => decide (a.1 = 7))).length = 1) ∧
    ((checkCrossingsOptimized 22 18 gasSampleFull).2.cacheGasAlerts.lookup 7 = none) ∧
    ((checkCrossingsOptimized 22 18 gasSampleFull).2.storageGasAlerts.lookup 7 = none) ∧
    (∀ q ∈ (checkCrossingsOptimized 22 18 gasSampleFull).2.presetsByThreshold,
      7 ∉ q.2) :=
  gas_one_shot 22 18 20 [7] 7 gasSampleFull
    ⟨by decide, by decide⟩
    (by simp [gasSampleFull]) (by simp) (by norm_num) (by norm_num)

/-! ## Candle ingestion (`CandleProcessor.add_candle`)

`config.CANDLE_QUEUE_SIZE = 10000`.  The method guards `is_closed`, then
runs `await self.candle_queue.put(candle)` with an
`except asyncio.QueueFull` handler that logs "dropping candle".  Under
asyncio semantics `await put` on a full queue suspends until space frees
and `QueueFull` is raised only by `put_nowait`, so the drop branch is
unreachable: the embedding gives it the constructor `dropped` and `await
put` on a full queue the constructor `blocked`. -/

structure Candle where
  symbol : String
  interval : String
  open_price : ℚ
  close_price : ℚ
  is_closed : Bool
  deriving DecidableEq

def CANDLE_QUEUE_SIZE : ℕ := 10000

inductive AddCandleOutcome where
  | ignored
  | enqueued (q : List Candle)
  | blocked
  | dropped
  deriving DecidableEq

/-- `CandleProcessor.add_candle` under asyncio semantics. -/
def add_candle (queue : List Candle) (candle : Candle) : AddCandleOutcome :=
  if ¬candle.is_closed then .ignored
  else if queue.length < CANDLE_QUEUE_SIZE then .enqueued (queue ++ [candle])
  else .blocked

/-- C6 (code bug): on a full queue a closed candle is neither dropped nor
counted — the call suspends on `await put` (the `except asyncio.QueueFull`
drop branch can never run, as `QueueFull` only comes from `put_nowait`). -/
theorem add_candle_full_blocks (q : List Candle) (c : Candle)
    (hc : c.is_closed = true) (hfull : CANDLE_QUEUE_SIZE ≤ q.length) :
    add_candle q c = .blocked ∧ ∀ q' c', add_candle q' c' ≠ .dropped := by
  constructor
  · unfold add_candle
    rw [hc]
    rw [if_neg (by simp), if_neg (not_lt.mpr hfull)]
  · intro q' c'
    unfold add_candle
    by_cases h1 : ¬c'.is_closed
    · rw [if_pos h1]
      simp
    · rw [if_neg h1]
      by_cases h2 : q'.length < CANDLE_QUEUE_SIZE
      · rw [if_pos h2]
        simp
      · rw [if_neg h2]
        simp

/-- A closed sample candle. -/
def sampleCandle : Candle :=
  { symbol := "BTCUSDT", interval := "1m", open_price := 100,
    close_price := 105, is_closed := true }

/-- Witness: the failing input — a queue already holding
`CANDLE_QUEUE_SIZE` candles. -/
theorem add_candle_full_blocks_witness :
    add_candle (List.replicate CANDLE_QUEUE_SIZE sampleCandle) sampleCandle =
        AddCandleOutcome.blocked ∧
      ∀ q' c', add_candle q' c' ≠ AddCandleOutcome.dropped :=
  add_candle_full_blocks (List.replicate CANDLE_QUEUE_SIZE sampleCandle)
    sampleCandle rfl (by rw [List.length_replicate])

/-! ## The outbound queue rate limiter (`utils/queue.py`)

`_send_times` is a deque of send timestamps; `_can_send_message` pops
entries older than `QUEUE_RATE_LIMIT_WINDOW` from the front and admits a
send only while fewer than `QUEUE_MAX_MESSAGES_PER_MINUTE` remain.  Both
the scheduler tick (`_send_next_message`) and the immediate batch flushes
(`_send_user_*_alerts_immediately`) run this check before sending and
append the send time afterwards; a send attempt is embedded as one atomic
check-send-record step. -/

def QUEUE_MAX_MESSAGES_PER_MINUTE : ℕ := 30

def QUEUE_RATE_LIMIT_WINDOW : ℚ := 60

/-- The `while` loop of `_can_send_message`: pop from the front while the
age exceeds the window. -/
def purgeSendTimes (now : ℚ) : List ℚ → List ℚ
  | [] => []
  | t :: rest =>
    if now - t > QUEUE_RATE_LIMIT_WINDOW then purgeSendTimes now rest
    else t :: rest

/-- One send attempt: purge, check the cap, and on success record the
send time. -/
def canSendStep (now : ℚ) (sendTimes : List ℚ) : Bool × List ℚ :=
  let st := purgeSendTimes now sendTimes
  if st.length < QUEUE_MAX_MESSAGES_PER_MINUTE then (true, st ++ [now])
  else (false, st)

/-- A run of send attempts (`Bool` tags scheduler tick vs immediate
flush; both take the same path).  Returns the accepted send times and the
final deque. -/
def runQueueSends (attempts : List (ℚ × Bool)) (sendTimes accepted : List ℚ) :
    List ℚ × List ℚ :=
  match attempts with
  | [] => (accepted, sendTimes)
  | a :: rest =>
    let r := canSendStep a.1 sendTimes
    runQueueSends rest r.2 (if r.1 then accepted ++ [a.1] else accepted)

/-- Number of accepted sends inside the rolling window ending at `t`. -/
def windowCount (l : List ℚ) (t : ℚ) : ℕ :=
  (l.filter (fun s => decide (t - QUEUE_RATE_LIMIT_WINDOW ≤ s) &&
    decide (s ≤ t))).length

theorem purgeSendTimes_eq_filter {now : ℚ} {l : List ℚ}
    (hs : l.Sorted (· ≤ ·)) :
    purgeSendTimes now l =
      l.filter (fun s => decide (now - s ≤ QUEUE_RATE_LIMIT_WINDOW)) := by
  induction l with
  | nil => rfl
  | cons t rest ih =>
    obtain ⟨hall, hrest⟩ := List.sorted_cons.mp hs
    simp only [purgeSendTimes]
    by_cases hc : now - t > QUEUE_RATE_LIMIT_WINDOW
    · rw [if_pos hc, List.filter_cons_of_neg (by simpa using not_le.mpr hc)]
      exact ih hrest
    · rw [if_neg hc, List.filter_cons_of_pos (by simpa using not_lt.mp hc)]
      congr 1
      rw [eq_comm, List.filter_eq_self]
      intro s hsm
      have h1 : t ≤ s := hall s hsm
      have h2 : now - t ≤ QUEUE_RATE_LIMIT_WINDOW := not_lt.mp hc
      simp only [decide_eq_true_eq]
      linarith

theorem filter_window_trans {T now : ℚ} (h : T ≤ now) (acc : List ℚ) :
    (acc.filter (fun s => decide (T - s ≤ QUEUE_RATE_LIMIT_WINDOW))).filter
        (fun s => decide (now - s ≤ QUEUE_RATE_LIMIT_WINDOW)) =
      acc.filter (fun s => decide (now - s ≤ QUEUE_RATE_LIMIT_WINDOW)) := by
  rw [List.filter_filter]
  apply List.filter_congr
  intro s _
  by_cases hc : now - s ≤ QUEUE_RATE_LIMIT_WINDOW
  · have h2 : T - s ≤ QUEUE_RATE_LIMIT_WINDOW := by linarith
    simp [hc, h2]
  · simp [hc]

theorem runQueueSends_window_bound (attempts : List (ℚ × Bool)) :
    ∀ (acc : List ℚ) (T : ℚ),
      (attempts.map Prod.fst).Sorted (· ≤ ·) →
      (∀ a ∈ attempts, T ≤ a.1) →
      acc.Sorted (· ≤ ·) →
      (∀ s ∈ acc, s ≤ T) →
      (∀ t, windowCount acc t ≤ QUEUE_MAX_MESSAGES_PER_MINUTE) →
      ∀ t, windowCount (runQueueSends attempts
          (acc.filter (fun s => decide (T - s ≤ QUEUE_RATE_LIMIT_WINDOW)))
          acc).1 t ≤ QUEUE_MAX_MESSAGES_PER_MINUTE := by
  induction attempts with
  | nil =>
    intro acc T _ _ _ _ hbound t
    exact hbound t
  | cons a rest ih =>
    intro acc T hsorted hT haccs haccle hbound t
    have hTa : T ≤ a.1 := hT a (List.mem_cons_self _ _)
    obtain ⟨hall, hrest⟩ := List.sorted_cons.mp hsorted
    have hrestle : ∀ b ∈ rest, a.1 ≤ b.1 := fun b hb =>
      hall b.1 (List.mem_map.mpr ⟨b, hb, rfl⟩)
    have hfs : (acc.filter
        (fun s => decide (T - s ≤ QUEUE_RATE_LIMIT_WINDOW))).Sorted (· ≤ ·) :=
      haccs.filter _
    have hpurge : purgeSendTimes a.1
        (acc.filter (fun s => decide (T - s ≤ QUEUE_RATE_LIMIT_WINDOW))) =
        acc.filter (fun s => decide (a.1 - s ≤ QUEUE_RATE_LIMIT_WINDOW)) := by
      rw [purgeSendTimes_eq_filter hfs, filter_window_trans hTa]
    show windowCount (runQueueSends rest
        (canSendStep a.1 _).2
        (if (canSendStep a.1 _).1 then acc ++ [a.1] else acc)).1 t ≤ _
    unfold canSendStep
    rw [hpurge]
    by_cases hlen : (acc.filter
        (fun s => decide (a.1 - s ≤ QUEUE_RATE_LIMIT_WINDOW))).length <
        QUEUE_MAX_MESSAGES_PER_MINUTE
    · rw [if_pos hlen]
      have hnewfilter : (acc ++ [a.1]).filter
          (fun s => decide (a.1 - s ≤ QUEUE_RATE_LIMIT_WINDOW)) =
          acc.filter (fun s => decide (a.1 - s ≤ QUEUE_RATE_LIMIT_WINDOW)) ++ [a.1] := by
        rw [List.filter_append]
        congr 1
        rw [List.filter_cons_of_pos
          (by simp only [decide_eq_true_eq]; norm_num [QUEUE_RATE_LIMIT_WINDOW])]
        rfl
      have hbound' : ∀ u, windowCount (acc ++ [a.1]) u ≤
          QUEUE_MAX_MESSAGES_PER_MINUTE := by
        intro u
        unfold windowCount
        rw [List.filter_append, List.length_append]
        by_cases hin : (u - QUEUE_RATE_LIMIT_WINDOW ≤ a.1 ∧ a.1 ≤ u)
        · have hone : (List.filter (fun s =>
              decide (u - QUEUE_RATE_LIMIT_WINDOW ≤ s) && decide (s ≤ u))
              [a.1]).length ≤ 1 := by
            simpa using List.length_filter_le _ [a.1]
          have hmono : (List.filter (fun s =>
              decide (u - QUEUE_RATE_LIMIT_WINDOW ≤ s) && decide (s ≤ u))
              acc).length ≤ (List.filter
              (fun s => decide (a.1 - s ≤ QUEUE_RATE_LIMIT_WINDOW)) acc).length := by
            rw [← List.countP_eq_length_filter, ← List.countP_eq_length_filter]
            apply List.countP_mono_left
            intro s _ hsw
            simp only [Bool.and_eq_true, decide_eq_true_eq] at hsw
            simp only [decide_eq_true_eq]
            obtain ⟨hw1, hw2⟩ := hsw
            obtain ⟨hi1, hi2⟩ := hin
            linarith
          have hlt : (List.filter (fun s =>
              decide (u - QUEUE_RATE_LIMIT_WINDOW ≤ s) && decide (s ≤ u))
              acc).length < QUEUE_MAX_MESSAGES_PER_MINUTE :=
            lt_of_le_of_lt hmono hlen
          omega
        · have hzero : (List.filter (fun s =>
              decide (u - QUEUE_RATE_LIMIT_WINDOW ≤ s) && decide (s ≤ u))
              [a.1]).length = 0 := by
            by_cases h1 : u - QUEUE_RATE_LIMIT_WINDOW ≤ a.1
            · have h2 : ¬a.1 ≤ u := fun h2 => hin ⟨h1, h2⟩
              rw [List.filter_cons_of_neg (by simp [h2])]
              rfl
            · rw [List.filter_cons_of_neg (by simp [h1])]
              rfl
          rw [hzero]
          have := hbound u
          unfold windowCount at this
          omega
      have hstep : runQueueSends rest
          (acc.filter (fun s => decide (a.1 - s ≤ QUEUE_RATE_LIMIT_WINDOW)) ++ [a.1])
          (acc ++ [a.1]) = runQueueSends rest
          ((acc ++ [a.1]).filter
            (fun s => decide (a.1 - s ≤ QUEUE_RATE_LIMIT_WINDOW)))
          (acc ++ [a.1]) := by
        rw [hnewfilter]
      rw [if_pos rfl, hstep]
      exact ih (acc ++ [a.1]) a.1 hrest hrestle
        (by
          refine List.pairwise_append.mpr ⟨haccs, List.pairwise_singleton _ _, ?_⟩
          intro x hx y hy
          rw [List.mem_singleton.mp hy]
          exact le_trans (haccle x hx) hTa)
        (by
          intro s hsm
          rcases List.mem_append.mp hsm with hsl | hsr
          · exact le_trans (haccle s hsl) hTa
          · rw [List.mem_singleton.mp hsr])
        hbound' t
    · rw [if_neg hlen]
      simp only [if_neg (Bool.false_ne_true)]
      exact ih acc a.1 hrest hrestle haccs
        (fun s hsm => le_trans (haccle s hsm) hTa) hbound t

/-- C7: in any execution of the outbound queue — scheduler-tick sends and
immediate batch-flush sends both passing through `_can_send_message` and
recording their send time — the number of accepted sends inside any
rolling `QUEUE_RATE_LIMIT_WINDOW`-second window never exceeds
`QUEUE_MAX_MESSAGES_PER_MINUTE`. -/
theorem queue_rate_cap (attempts : List (ℚ × Bool))
    (hs : (attempts.map Prod.fst).Sorted (· ≤ ·)) (t : ℚ) :
    windowCount (runQueueSends attempts [] []).1 t ≤
      QUEUE_MAX_MESSAGES_PER_MINUTE := by
  cases attempts with
  | nil => exact Nat.zero_le _
  | cons a rest =>
    have hall : ∀ b ∈ a :: rest, a.1 ≤ b.1 := by
      intro b hb
      rcases List.mem_cons.mp hb with he | hm
      · rw [he]
      · exact (List.sorted_cons.mp hs).1 b.1 (List.mem_map.mpr ⟨b, hm, rfl⟩)
    exact runQueueSends_window_bound (a :: rest) [] a.1 hs hall
      (List.sorted_nil) (fun s hsm => absurd hsm (List.not_mem_nil s))
      (fun u => Nat.zero_le _) t

/-- Witness: a three-attempt run (two scheduler ticks and one immediate
flush) with the window ending at time 10. -/
theorem queue_rate_cap_witness :
    windowCount (runQueueSends [(0, true), (0, false), (10, true)] [] []).1 10 ≤
      QUEUE_MAX_MESSAGES_PER_MINUTE :=
  queue_rate_cap [(0, true), (0, false), (10, true)]
    (by norm_num [List.sorted_cons]) 10

/-! ## Outbound delivery failure handling (`MessageQueue._send_next_message`)

The scheduler pops the next item (plain messages sorted by
`(priority, timestamp)` first, then the first user's gas batch, then up
to `MAX_ALERTS_PER_MESSAGE` of the first user's candle batch) and sends
it.  On an exception whose text does not contain "bot was blocked" the
message is re-inserted at index 0 of `message_queue`; on a blocked
recipient nothing is re-inserted. -/

structure Message where
  priority : ℤ
  timestamp : ℚ
  user_id : ℕ
  content : String
  deriving DecidableEq

def MAX_ALERTS_PER_MESSAGE : ℕ := 50

/-- `Priority.HIGH.value`. -/
def PRIORITY_HIGH : ℤ := 1

structure QueueState where
  message_queue : List Message
  gas_alert_batches : List (ℕ × List String)
  candle_alert_batches : List (ℕ × List String)
  deriving DecidableEq

/-- The sort key of `self.message_queue.sort(key=lambda m: (m.priority,
m.timestamp))`. -/
def msgLe (a b : Message) : Bool :=
  decide (a.priority < b.priority) ||
    (decide (a.priority = b.priority) && decide (a.timestamp ≤ b.timestamp))

/-- The selection step of `_send_next_message` (inside the lock): pop the
next message in lane order, returning it with the remaining state. -/
def pickNextMessage (now : ℚ) (st : QueueState) : Option (Message × QueueState) :=
  if st.message_queue ≠ [] then
    match st.message_queue.mergeSort msgLe with
    | [] => none
    | m :: rest => some (m, { st with message_queue := rest })
  else
    match st.gas_alert_batches with
    | (u, alerts) :: rest =>
      if alerts ≠ [] then
        some ({ priority := PRIORITY_HIGH, timestamp := now, user_id := u,
                content := String.intercalate "\n" alerts },
          { st with gas_alert_batches := rest })
      else none
    | [] =>
      match st.candle_alert_batches with
      | (u, alerts) :: rest =>
        if alerts ≠ [] then
          some ({ priority := PRIORITY_HIGH, timestamp := now, user_id := u,
                  content := String.intercalate "\n"
                    (alerts.take MAX_ALERTS_PER_MESSAGE) },
            { st with candle_alert_batches :=
                if alerts.drop MAX_ALERTS_PER_MESSAGE = [] then rest
                else (u, alerts.drop MAX_ALERTS_PER_MESSAGE) :: rest })
        else none
      | [] => none

/-- The delivery client's outcome as the code distinguishes it: success,
an exception containing "bot was blocked", or any other exception. -/
inductive SendResult where
  | success
  | transientError
  | blockedError
  deriving DecidableEq

/-- `_send_next_message`: pick, send, and on failure either re-insert at
the front of `message_queue` (transient) or drop (blocked recipient). -/
def sendNextMessage (now : ℚ) (st : QueueState) (res : SendResult) : QueueState :=
  match pickNextMessage now st with
  | none => st
  | some (m, st') =>
    match res with
    | .success => st'
    | .transientError => { st' with message_queue := m :: st'.message_queue }
    | .blockedError => st'

/-- C8: whenever a message is picked for delivery, a transient failure
re-queues exactly that message at the front of the queue (the rest of the
state is the post-pick state, so relative order is preserved), while a
blocked-recipient failure leaves the post-pick state untouched — the
message is dropped and nothing is re-queued in any lane. -/
theorem delivery_failure_handling (now : ℚ) (st : QueueState) (m : Message)
    (st' : QueueState) (hpick : pickNextMessage now st = some (m, st')) :
    sendNextMessage now st .transientError =
      { st' with message_queue := m :: st'.message_queue } ∧
    sendNextMessage now st .blockedError = st' ∧
    (sendNextMessage now st .blockedError).message_queue = st'.message_queue ∧
    (sendNextMessage now st .blockedError).gas_alert_batches = st'.gas_alert_batches ∧
    (sendNextMessage now st .blockedError).candle_alert_batches =
      st'.candle_alert_batches := by
  unfold sendNextMessage
  rw [hpick]
  exact ⟨rfl, rfl, rfl, rfl, rfl⟩

/-- Witness: a queue whose only pending item is one user's gas batch. -/
theorem delivery_failure_handling_witness :
    sendNextMessage 0 ⟨[], [(3, ["g"])], []⟩ SendResult.transientError =
      { message_queue := [⟨PRIORITY_HIGH, 0, 3, String.intercalate "\n" ["g"]⟩],
        gas_alert_batches := [], candle_alert_batches := [] } ∧
    sendNextMessage 0 ⟨[], [(3, ["g"])], []⟩ SendResult.blockedError =
      ⟨[], [], []⟩ ∧
    (sendNextMessage 0 ⟨[], [(3, ["g"])], []⟩ SendResult.blockedError).message_queue =
      QueueState.message_queue ⟨[], [], []⟩ ∧
    (sendNextMessage 0 ⟨[], [(3, ["g"])], []⟩ SendResult.blockedError).gas_alert_batches =
      QueueState.gas_alert_batches ⟨[], [], []⟩ ∧
    (sendNextMessage 0 ⟨[], [(3, ["g"])], []⟩ SendResult.blockedError).candle_alert_batches =
      QueueState.candle_alert_batches ⟨[], [], []⟩ :=
  delivery_failure_handling 0 ⟨[], [(3, ["g"])], []⟩
    ⟨PRIORITY_HIGH, 0, 3, String.intercalate "\n" ["g"]⟩ ⟨[], [], []⟩ rfl

end TradeBot
